import Mathlib

/-!
Shallow embedding of the text-analysis core of `src/app.py` (PDF Analyser).

Texts are modelled as `List Char`; Python floats are modelled as exact
rationals `ℚ`; the external libraries (PyPDF2, textstat) are modelled as
oracles passed in as arguments, since only the wrapper code belongs to the
repository.
-/

/-- Python regex `\s` on the ASCII range: the whitespace characters recognised by
`re.sub(r'\s+', ' ', text)` and `str.strip()` on the texts considered here. -/
def isWS (c : Char) : Bool :=
  c = ' ' || c = '\t' || c = '\n' || c = '\r' || c = '\x0b' || c = '\x0c'

/-- Sentence-terminal characters, from the lookbehind of `re.split(r'(?<=[.!?])\s+', ...)`. -/
def isTerm (c : Char) : Bool := c = '.' || c = '!' || c = '?'

/-- Python regex class `[A-Za-z']` used by `words` in app.py. -/
def isWordLetter (c : Char) : Bool :=
  ('A' ≤ c && c ≤ 'Z') || ('a' ≤ c && c ≤ 'z') || c = '\''

/-- Accumulator pass of `words`; `cur` holds the current in-progress token, reversed. -/
def wordsAux : List Char → List Char → List (List Char)
  | cur, [] => if cur.isEmpty then [] else [cur.reverse]
  | cur, c :: cs =>
    if isWordLetter c then wordsAux (c :: cur) cs
    else if cur.isEmpty then wordsAux [] cs
    else cur.reverse :: wordsAux [] cs

/-- Model of `words(text)` from app.py: `re.findall(r"[A-Za-z']+", text)`, i.e. the maximal runs
of ASCII letters and apostrophes, in order. -/
def words (text : List Char) : List (List Char) := wordsAux [] text

/-- Model of `re.sub(r'\s+', ' ', text)`: collapse every whitespace run to a single space. -/
def normWS : List Char → List Char
  | [] => []
  | [c] => if isWS c then [' '] else [c]
  | c :: c' :: cs =>
    if isWS c then
      if isWS c' then normWS (c' :: cs)
      else ' ' :: normWS (c' :: cs)
    else c :: normWS (c' :: cs)

/-- Python `str.strip()`: drop leading and trailing whitespace. -/
def stripWS (l : List Char) : List Char := (l.dropWhile isWS).rdropWhile isWS

/-- Whether the most recently scanned character (head of the reversed accumulator) is
sentence-terminal, i.e. the lookbehind `(?<=[.!?])` holds at the current position. -/
def headIsTerm : List Char → Bool
  | [] => false
  | c :: _ => isTerm c

/-- Scanner for `re.split(r'(?<=[.!?])\s+', text)`. `acc` is the current segment,
reversed; the `Bool` records whether we are inside a separator's whitespace run.
A whitespace character whose predecessor is `.`, `!` or `?` starts a separator. -/
def splitAux : List Char → Bool → List Char → List (List Char)
  | [], skipping, acc => if skipping then [[]] else [acc.reverse]
  | c :: cs, true, _ => if isWS c then splitAux cs true [] else splitAux cs false [c]
  | c :: cs, false, acc =>
    if isWS c && headIsTerm acc then acc.reverse :: splitAux cs true []
    else splitAux cs false (c :: acc)

/-- Model of `split_sentences(text)` from app.py: normalise whitespace, split right after a
`.`/`!`/`?` that is followed by whitespace, strip each piece, drop the empty ones. -/
def split_sentences (text : List Char) : List (List Char) :=
  ((splitAux (normWS text) false []).map stripWS).filter (fun s => !s.isEmpty)

/-- Loop of `find_long_sentences`, carrying the 1-based index `i`. -/
def longSentencesFrom (i threshold : ℕ) : List (List Char) → List (ℕ × ℕ × List Char)
  | [] => []
  | s :: ss =>
    if threshold < (words s).length then
      (i, (words s).length, s) :: longSentencesFrom (i + 1) threshold ss
    else longSentencesFrom (i + 1) threshold ss

/-- Model of `find_long_sentences(sentences, threshold=25)` from app.py: flag each sentence whose
word count strictly exceeds `threshold`, as `(1-based index, word count, sentence)`. -/
def find_long_sentences (sentences : List (List Char)) (threshold : ℕ := 25) :
    List (ℕ × ℕ × List Char) :=
  longSentencesFrom 1 threshold sentences

/-- Model of `avg_words_per_sentence(sentences)` from app.py, floats taken as exact rationals:
`0.0` on the empty list, otherwise total word count over number of sentences. -/
def avg_words_per_sentence (sentences : List (List Char)) : ℚ :=
  if sentences.isEmpty then 0
  else (sentences.map fun s => ((words s).length : ℚ)).sum / (sentences.length : ℚ)

/-- Python regex `\w` on the ASCII range: word characters. -/
def isW (c : Char) : Bool :=
  ('A' ≤ c && c ≤ 'Z') || ('a' ≤ c && c ≤ 'z') || ('0' ≤ c && c ≤ '9') || c = '_'

/-- Case-insensitive equality of character lists, as the backreference `\1` compares
under `re.IGNORECASE` (ASCII case folding). -/
def lcEq (a b : List Char) : Bool := a.map Char.toLower == b.map Char.toLower

/-- Word boundary `\b` placed right after a word character: end of input or a non-word
character next. -/
def noWordNext : List Char → Bool
  | [] => true
  | c :: _ => !isW c

/-- Attempt to match `\b(\w+)\s+\1\b` (case-insensitive) at the current position.
`prevW` says whether the preceding character is a word character (the leading `\b`);
`l` is the remaining text. On success, returns the captured group and the match length.
Backtracking collapses: a shorter group than the full word run would put a word
character where `\s+` must start, and a shorter whitespace run would put whitespace
where `\1` must start, so both runs are forced to be maximal. -/
def dupMatchAt (prevW : Bool) (l : List Char) : Option (List Char × ℕ) :=
  if prevW then none
  else
    let w := l.takeWhile isW
    if w.isEmpty then none
    else
      let r1 := l.dropWhile isW
      let sp := r1.takeWhile isWS
      if sp.isEmpty then none
      else
        let r2 := r1.dropWhile isWS
        if lcEq (r2.take w.length) w && noWordNext (r2.drop w.length) then
          some (w, w.length + sp.length + w.length)
        else none

/-- The `±40`-character context slice around a match,
`text[max(0, start-40):min(len(text), end+40)]` with newlines flattened to spaces
(natural subtraction gives the `max`, `take` past the end gives the `min`). -/
def dupContext (text : List Char) (s e : ℕ) : List Char :=
  ((text.take (e + 40)).drop (s - 40)).map fun c => if c = '\n' then ' ' else c

/-- The `re.finditer` scan of `find_duplicate_words`: try a match at every position,
emit `(group, context)` on success and resume right after the match (whose last
character is always a word character, hence `prevW := true`). `i` is the current
position and `prevW` whether `text[i-1]` is a word character. The scan advances by at
least one position per step, so with fuel `text.length + 1` it always reaches the end
of the text; the fuel only keeps the recursion structural. -/
def findDupAux (text : List Char) : ℕ → Bool → ℕ → List (List Char × List Char)
  | 0, _, _ => []
  | fuel + 1, prevW, i =>
    match text.drop i with
    | [] => []
    | c :: cs =>
      match dupMatchAt prevW (c :: cs) with
      | some (w, len) =>
        (w, dupContext text i (i + len)) :: findDupAux text fuel true (i + len)
      | none => findDupAux text fuel (isW c) (i + 1)

/-- Model of `find_duplicate_words(text)` from app.py: scan for a word immediately followed by
itself (case-insensitively), pairing each match's first occurrence with its context. -/
def find_duplicate_words (text : List Char) : List (List Char × List Char) :=
  findDupAux text (text.length + 1) false 0

/-- Raw result of one successful run of the textstat library: the six metric values
read by `readability_summary` (floats as exact rationals, counts as integers). -/
structure TextstatResult where
  fleschReadingEase : ℚ
  fleschKincaidGrade : ℚ
  smogIndex : ℚ
  daleChallScore : ℚ
  lexiconCount : ℤ
  sentenceCount : ℤ

/-- Python `round` to the nearest integer, half-way cases to the even neighbour. -/
def roundHalfEven (q : ℚ) : ℤ :=
  if Int.fract q < 1 / 2 then ⌊q⌋
  else if 1 / 2 < Int.fract q then ⌊q⌋ + 1
  else if ⌊q⌋ % 2 = 0 then ⌊q⌋ else ⌊q⌋ + 1

/-- Python `round(q, n)`: round to `n` decimal places, ties to even. -/
def roundTo (n : ℕ) (q : ℚ) : ℚ := (roundHalfEven (q * 10 ^ n) : ℚ) / 10 ^ n

/-- The mapping built by `readability_summary` on success: exactly six named entries.
The fields are, in insertion order, the keys "Flesch Reading Ease (higher is easier)",
"Flesch–Kincaid Grade (US school grade)", "SMOG Index", "Dale–Chall Score", "Words"
and "Sentences". -/
structure RStats where
  fleschReadingEase : ℚ
  fleschKincaidGrade : ℚ
  smogIndex : ℚ
  daleChallScore : ℚ
  wordsCount : ℤ
  sentencesCount : ℤ

/-- Model of `readability_summary(text)` from app.py. The textstat library is external to the
repository, so its run on the document is an oracle argument: `.ok` carries the six
raw metric values, `.error` stands for any exception raised inside the `try` block.
The wrapper rounds the four scores (to 1, 1, 1 and 2 decimal places) and swallows
every failure into the empty mapping (`none`). -/
def readability_summary (run : Except Unit TextstatResult) : Option RStats :=
  match run with
  | .error _ => none
  | .ok t =>
    some ⟨roundTo 1 t.fleschReadingEase, roundTo 1 t.fleschKincaidGrade,
      roundTo 1 t.smogIndex, roundTo 2 t.daleChallScore, t.lexiconCount, t.sentenceCount⟩

/-- The page loop of `extract_text_from_pdf`: collect `page.extract_text() or ""`. -/
def collectPages : List (Option (List Char)) → List (List Char)
  | [] => []
  | p :: ps => p.getD [] :: collectPages ps

/-- Python `"\n".join(texts)`. -/
def joinNL : List (List Char) → List Char
  | [] => []
  | [t] => t
  | t :: t' :: ts => t ++ '\n' :: joinNL (t' :: ts)

/-- Model of `extract_text_from_pdf(file_bytes)` from app.py. The PDF library is external to the
repository, so parsing the uploaded bytes is an oracle argument: `.ok` carries the
per-page extraction results (`none` for a page whose `extract_text()` returned `None`),
`.error` stands for any exception raised inside the `try` block. The wrapper joins the
pages with newlines, strips the result, and turns every failure into the empty
string. -/
def extract_text_from_pdf (parsed : Except Unit (List (Option (List Char)))) :
    List Char :=
  match parsed with
  | .error _ => []
  | .ok pages => stripWS (joinNL (collectPages pages))

/-- Suggestion string of app.py line 156. -/
def sugReadability : String :=
  "Improve readability: use shorter sentences and simpler words (Flesch score < 60)."

/-- Suggestion string of app.py line 158. -/
def sugShorten : String := "Shorten sentences: aim for ~14–20 words per sentence on average."

/-- Suggestion string of app.py line 160. -/
def sugLongSents (n : ℕ) : String :=
  "Break up long sentences: found " ++ toString n ++ " sentences over 25 words."

/-- Suggestion string of app.py line 162. -/
def sugPassive (n : ℕ) : String :=
  "Reduce passive voice: found " ++ toString n ++ " likely cases."

/-- Suggestion string of app.py line 164. -/
def sugAdverbs (n : ℕ) : String :=
  "Trim adverbs (-ly): " ++ toString n ++ " sentences have many adverbs."

/-- Suggestion string of app.py line 166. -/
def sugSpelling (n : ℕ) : String :=
  "Fix spelling: at least " ++ toString n ++ " possible misspellings."

/-- Suggestion string of app.py line 168. -/
def sugBullets (n : ℕ) : String :=
  "Tighten bullet points: " ++ toString n ++ " bullets exceed 20 words."

/-- Fallback suggestion string of app.py line 171. -/
def sugFallback : String := "Looks good! No major issues detected by the basic checks."

/-- First aggregator condition, app.py line 155: `stats` is non-empty (truthy) and its
Flesch Reading Ease entry is below 60. `stats.get(key, 100)` always finds the key when
the mapping is non-empty, since `readability_summary` only builds full mappings. -/
def fleschBelow60 : Option RStats → Bool
  | none => false
  | some r => decide (r.fleschReadingEase < 60)

/-- The suggestion aggregator of app.py lines 153-171: a pure function of the
readability mapping, the average words-per-sentence, and the lengths of the issue
lists (long sentences, passive voice, adverbs, spelling, long bullets). Each `let`
mirrors one `if ...: suggestions.append(...)` statement, in program order, and the
final line is the fallback of lines 170-171. -/
def suggestions (stats : Option RStats) (avg_wps : ℚ)
    (nLong nPassive nAdverbs nSpell nBullets : ℕ) : List String :=
  let s1 : List String := if fleschBelow60 stats then [sugReadability] else []
  let s2 := if 20 < avg_wps then s1 ++ [sugShorten] else s1
  let s3 := if 3 ≤ nLong then s2 ++ [sugLongSents nLong] else s2
  let s4 := if 3 ≤ nPassive then s3 ++ [sugPassive nPassive] else s3
  let s5 := if 3 ≤ nAdverbs then s4 ++ [sugAdverbs nAdverbs] else s4
  let s6 := if 5 ≤ nSpell then s5 ++ [sugSpelling nSpell] else s5
  let s7 := if 1 ≤ nBullets then s6 ++ [sugBullets nBullets] else s6
  if s7 = [] then [sugFallback] else s7

/-- The rule table of spec §4.4, written from the spec's words: one `(condition,
suggestion)` row per rule, in the table's fixed order — readability, average sentence
length, long sentences, passive voice, adverbs, spelling, bullets. -/
def ruleTable (stats : Option RStats) (avg_wps : ℚ)
    (nLong nPassive nAdverbs nSpell nBullets : ℕ) : List (Bool × String) :=
  [(fleschBelow60 stats, sugReadability),
   (decide (20 < avg_wps), sugShorten),
   (decide (3 ≤ nLong), sugLongSents nLong),
   (decide (3 ≤ nPassive), sugPassive nPassive),
   (decide (3 ≤ nAdverbs), sugAdverbs nAdverbs),
   (decide (5 ≤ nSpell), sugSpelling nSpell),
   (decide (1 ≤ nBullets), sugBullets nBullets)]

/-- The suggestions of exactly the rules whose conditions hold, in the rule table's
fixed order (spec §4.4). -/
def firedSuggestions (stats : Option RStats) (avg_wps : ℚ)
    (nLong nPassive nAdverbs nSpell nBullets : ℕ) : List String :=
  ((ruleTable stats avg_wps nLong nPassive nAdverbs nSpell nBullets).filter
    (fun r => r.1)).map (fun r => r.2)

/-- The report loop of app.py lines 215-217: `report_lines` starts as the title line
and each suggestion is appended as a `- ` bullet. -/
def reportLoop : List String → List String → List String
  | [], acc => acc
  | s :: ss, acc => reportLoop ss (acc ++ ["- " ++ s])

/-- Model of `report_lines` from app.py: the title line followed by one bullet per suggestion. -/
def report_lines (sugs : List String) : List String :=
  reportLoop sugs ["# PDF Suggestions Report"]

/-- A bullet line of the Markdown report: one that starts with the marker `- `. -/
def isBulletLine (line : String) : Bool := line.data.take 2 == ['-', ' ']


/-! ### The suggestion aggregator (claims C1, C2) -/

/-- C1: the aggregator emits exactly the suggestion strings of the rules whose
conditions hold, in the rule table's fixed order (readability, average sentence
length, long sentences, passive voice, adverbs, spelling, bullets), with the single
fallback string when no rule fires; the rules are independent and not mutually
exclusive. In particular, with Flesch Reading Ease 55 and average words/sentence 15,
the readability suggestion is emitted and the shorten-sentences one is not. -/
theorem suggestions_rule_table :
    (∀ (stats : Option RStats) (avg : ℚ) (nL nP nA nS nB : ℕ),
      suggestions stats avg nL nP nA nS nB =
        if firedSuggestions stats avg nL nP nA nS nB = [] then [sugFallback]
        else firedSuggestions stats avg nL nP nA nS nB) ∧
    (suggestions (some ⟨55, 9, 10, 7, 100, 5⟩) 15 0 0 0 0 0 = [sugReadability] ∧
      sugShorten ∉ suggestions (some ⟨55, 9, 10, 7, 100, 5⟩) 15 0 0 0 0 0) := by
  constructor
  · intro stats avg nL nP nA nS nB
    by_cases h1 : fleschBelow60 stats = true <;>
    by_cases h2 : (20 : ℚ) < avg <;>
    by_cases h3 : 3 ≤ nL <;>
    by_cases h4 : 3 ≤ nP <;>
    by_cases h5 : 3 ≤ nA <;>
    by_cases h6 : 5 ≤ nS <;>
    by_cases h7 : 1 ≤ nB <;>
    simp [suggestions, firedSuggestions, ruleTable, h1, h2, h3, h4, h5, h6, h7]
  · have hfb : fleschBelow60 (some ⟨55, 9, 10, 7, 100, 5⟩) = true := by
      simp [fleschBelow60]
      norm_num
    have havg : ¬((20 : ℚ) < 15) := by norm_num
    have hout : suggestions (some ⟨55, 9, 10, 7, 100, 5⟩) 15 0 0 0 0 0 =
        [sugReadability] := by
      simp [suggestions, hfb, havg]
    refine ⟨hout, ?_⟩
    rw [hout]
    decide

/-- C2 fails as stated: with zero issues on every check and no readability mapping,
but an average words-per-sentence of 21, the aggregator returns the shorten-sentences
suggestion, not the single fallback string. -/
theorem suggestions_zero_issues_not_fallback :
    suggestions none 21 0 0 0 0 0 = [sugShorten] ∧ sugShorten ≠ sugFallback := by
  constructor
  · have h : (20 : ℚ) < 21 := by norm_num
    simp [suggestions, fleschBelow60, h]
  · decide

/-- C2 amended: with zero issues across all checks, no readability mapping, and an
average words-per-sentence of at most 20 — so that no rule of the table fires — the
aggregator returns exactly one suggestion, the fallback string. -/
theorem suggestions_fallback_of_no_rule (avg : ℚ) (h : avg ≤ 20) :
    suggestions none avg 0 0 0 0 0 = [sugFallback] := by
  have h2 : ¬((20 : ℚ) < avg) := not_lt.mpr h
  simp [suggestions, fleschBelow60, h2]

/-- Witness for `suggestions_fallback_of_no_rule` at the concrete average 15. -/
theorem suggestions_fallback_of_no_rule_witness :
    (15 : ℚ) ≤ 20 ∧ suggestions none 15 0 0 0 0 0 = [sugFallback] :=
  ⟨by norm_num, suggestions_fallback_of_no_rule 15 (by norm_num)⟩

/-! ### The Markdown report (claim C9) -/

/-- Unrolling of the report loop: the accumulator is extended by one bullet line per
suggestion, in order. -/
theorem reportLoop_eq (ss acc : List String) :
    reportLoop ss acc = acc ++ ss.map (fun s => "- " ++ s) := by
  induction ss generalizing acc with
  | nil => simp [reportLoop]
  | cons s ss ih => simp [reportLoop, ih]

/-- Prepending the bullet marker produces a bullet line. -/
theorem isBulletLine_append (s : String) : isBulletLine ("- " ++ s) = true := by
  have h : ("- " ++ s).data = '-' :: ' ' :: s.data := by
    rw [String.data_append]
    rfl
  simp [isBulletLine, h]

/-- C9: the generated report is the title line `# PDF Suggestions Report` followed by
exactly one bullet line per suggestion, so the number of bullet lines in the report
equals the length of the suggestion list. -/
theorem report_lines_round_trip (sugs : List String) :
    report_lines sugs = "# PDF Suggestions Report" :: sugs.map (fun s => "- " ++ s) ∧
    (report_lines sugs).countP isBulletLine = sugs.length ∧
    (report_lines sugs).length = sugs.length + 1 := by
  have h : report_lines sugs =
      "# PDF Suggestions Report" :: sugs.map (fun s => "- " ++ s) := by
    simp [report_lines, reportLoop_eq]
  refine ⟨h, ?_, ?_⟩
  · rw [h, List.countP_cons]
    have htitle : isBulletLine "# PDF Suggestions Report" = false := by decide
    have hall : ∀ line ∈ sugs.map (fun s => "- " ++ s), isBulletLine line = true := by
      intro line hline
      obtain ⟨s, _, rfl⟩ := List.mem_map.mp hline
      exact isBulletLine_append s
    rw [List.countP_eq_length.mpr hall, List.length_map, htitle]
    simp
  · rw [h]
    simp

/-! ### Average words per sentence (claim C10) -/

/-- C10: `avg_words_per_sentence` is total: it returns exactly 0 on the empty list,
and on a non-empty list the guard makes the divisor non-zero — the division-by-zero
branch is unreachable — and the result is the exact quotient of the total word count
by the number of sentences. -/
theorem avg_words_per_sentence_total (sentences : List (List Char)) :
    (sentences = [] → avg_words_per_sentence sentences = 0) ∧
    (sentences ≠ [] → (sentences.length : ℚ) ≠ 0 ∧
      avg_words_per_sentence sentences * (sentences.length : ℚ) =
        (sentences.map fun s => ((words s).length : ℚ)).sum) := by
  constructor
  · rintro rfl
    simp [avg_words_per_sentence]
  · intro h
    have h0 : (sentences.length : ℚ) ≠ 0 :=
      Nat.cast_ne_zero.mpr (List.length_pos.mpr h).ne'
    refine ⟨h0, ?_⟩
    rw [avg_words_per_sentence, if_neg (by simp [List.isEmpty_iff, h])]
    exact div_mul_cancel₀ _ h0

/-- Witness for `avg_words_per_sentence_total` at the empty list and a one-sentence
list. -/
theorem avg_words_per_sentence_total_witness :
    avg_words_per_sentence [] = 0 ∧
    ((([("ab".data)] : List (List Char)).length : ℚ) ≠ 0 ∧
      avg_words_per_sentence ["ab".data] *
          ((([("ab".data)] : List (List Char)).length : ℚ)) =
        (["ab".data].map fun s => ((words s).length : ℚ)).sum) :=
  ⟨(avg_words_per_sentence_total []).1 rfl,
   (avg_words_per_sentence_total ["ab".data]).2 (by simp)⟩

/-! ### Long sentences (claim C3) -/

/-- Membership characterisation of the `find_long_sentences` loop: starting the
1-based numbering at `k`, the issues are exactly the triples built from sentences
whose word count strictly exceeds the threshold. -/
theorem mem_longSentencesFrom {i wc : ℕ} {s : List Char} (th k : ℕ)
    (ss : List (List Char)) :
    (i, wc, s) ∈ longSentencesFrom k th ss ↔
      ∃ j, ss[j]? = some s ∧ i = k + j ∧ wc = (words s).length ∧ th < wc := by
  induction ss generalizing k with
  | nil => simp [longSentencesFrom]
  | cons a ss ih =>
    constructor
    · intro h
      rw [longSentencesFrom] at h
      by_cases hwc : th < (words a).length
      · rw [if_pos hwc] at h
        rcases List.mem_cons.mp h with heq | hmem
        · simp only [Prod.mk.injEq] at heq
          obtain ⟨hi, hw, hs⟩ := heq
          exact ⟨0, by simp [hs.symm], by omega, by rw [hw, hs], by rw [hw]; exact hwc⟩
        · obtain ⟨j, hj, hi, hw, hth⟩ := (ih (k + 1)).mp hmem
          exact ⟨j + 1, by simpa using hj, by omega, hw, hth⟩
      · rw [if_neg hwc] at h
        obtain ⟨j, hj, hi, hw, hth⟩ := (ih (k + 1)).mp h
        exact ⟨j + 1, by simpa using hj, by omega, hw, hth⟩
    · rintro ⟨j, hj, hi, hw, hth⟩
      rw [longSentencesFrom]
      cases j with
      | zero =>
        rw [List.getElem?_cons_zero] at hj
        injection hj with hj'
        subst hj'
        rw [if_pos (hw ▸ hth)]
        exact List.mem_cons.mpr (Or.inl (by simp [hi, hw]))
      | succ j =>
        rw [List.getElem?_cons_succ] at hj
        have hmem : (i, wc, s) ∈ longSentencesFrom (k + 1) th ss :=
          (ih (k + 1)).mpr ⟨j, hj, by omega, hw, hth⟩
        by_cases hwc : th < (words a).length
        · rw [if_pos hwc]
          exact List.mem_cons.mpr (Or.inr hmem)
        · rw [if_neg hwc]
          exact hmem

/-- The sentence used by the specification's long-sentence scenario. -/
def specLongSentence : List Char :=
  ("This is a very very long test sentence that clearly exceeds twenty five words "
    ++ "in total count for sure yes indeed truly").data

/-- C3 fails as stated: the scenario sentence contains 22 words, not 26, so
`find_long_sentences` with threshold 25 (the default) does not flag it. -/
theorem find_long_sentences_example_refuted :
    (words specLongSentence).length = 22 ∧
    find_long_sentences [specLongSentence] 25 = [] := by
  constructor
  · decide
  · decide

/-- C3 amended: `find_long_sentences` flags a sentence exactly when its word count
strictly exceeds the threshold (default 25), returning a (1-based index, word count,
sentence text) triple for each flagged sentence; the scenario sentence has 22 words,
so it is flagged neither with threshold 25 nor with threshold 30. -/
theorem find_long_sentences_spec :
    (∀ (ss : List (List Char)) (th i wc : ℕ) (s : List Char),
      (i, wc, s) ∈ find_long_sentences ss th ↔
        ∃ j, ss[j]? = some s ∧ i = j + 1 ∧ wc = (words s).length ∧ th < wc) ∧
    (words specLongSentence).length = 22 ∧
    find_long_sentences [specLongSentence] 25 = [] ∧
    find_long_sentences [specLongSentence] 30 = [] := by
  refine ⟨?_, by decide, by decide, by decide⟩
  intro ss th i wc s
  rw [find_long_sentences, mem_longSentencesFrom]
  constructor
  · rintro ⟨j, hj, hi, hw, hth⟩
    exact ⟨j, hj, by omega, hw, hth⟩
  · rintro ⟨j, hj, hi, hw, hth⟩
    exact ⟨j, hj, by omega, hw, hth⟩

/-! ### Readability summary (claim C4) -/

/-- The integer produced by round-half-to-even is within one half of its argument. -/
theorem roundHalfEven_close (q : ℚ) : |(roundHalfEven q : ℚ) - q| ≤ 1 / 2 := by
  have hs : q - (⌊q⌋ : ℚ) = Int.fract q := Int.self_sub_floor q
  have h0 : 0 ≤ Int.fract q := Int.fract_nonneg q
  have h1 : Int.fract q < 1 := Int.fract_lt_one q
  unfold roundHalfEven
  split_ifs with ha hb hc <;>
  · rw [abs_le]
    push_cast
    constructor <;> linarith

/-- Rounding to `n` decimal places moves the value by at most half a unit in the last
place. -/
theorem roundTo_close (n : ℕ) (q : ℚ) : |roundTo n q - q| ≤ 1 / (2 * 10 ^ n) := by
  have h := roundHalfEven_close (q * 10 ^ n)
  have hpos : (0 : ℚ) < 10 ^ n := by positivity
  unfold roundTo
  have heq : (roundHalfEven (q * 10 ^ n) : ℚ) / 10 ^ n - q =
      ((roundHalfEven (q * 10 ^ n) : ℚ) - q * 10 ^ n) / 10 ^ n := by
    field_simp
    ring
  rw [heq, abs_div, abs_of_pos hpos,
    show (1 : ℚ) / (2 * 10 ^ n) = (1 / 2) / 10 ^ n by ring]
  exact div_le_div_of_nonneg_right h hpos.le

/-- C4: `readability_summary` never propagates an error: on any failure of the wrapped
library it returns the empty mapping, and on success it returns exactly the six named
values — Flesch Reading Ease, Flesch–Kincaid Grade and SMOG Index rounded to 1 decimal
place, Dale–Chall Score rounded to 2, plus the word and sentence counts — each rounded
score being an integer multiple of its precision and within half a unit in the last
place of the raw value. -/
theorem readability_summary_total (run : Except Unit TextstatResult) :
    (∀ e, run = Except.error e → readability_summary run = none) ∧
    (∀ t, run = Except.ok t →
      readability_summary run =
        some ⟨roundTo 1 t.fleschReadingEase, roundTo 1 t.fleschKincaidGrade,
          roundTo 1 t.smogIndex, roundTo 2 t.daleChallScore,
          t.lexiconCount, t.sentenceCount⟩ ∧
      ∀ r, readability_summary run = some r →
        (∃ k : ℤ, r.fleschReadingEase = (k : ℚ) / 10 ^ 1) ∧
        (∃ k : ℤ, r.fleschKincaidGrade = (k : ℚ) / 10 ^ 1) ∧
        (∃ k : ℤ, r.smogIndex = (k : ℚ) / 10 ^ 1) ∧
        (∃ k : ℤ, r.daleChallScore = (k : ℚ) / 10 ^ 2) ∧
        |r.fleschReadingEase - t.fleschReadingEase| ≤ 1 / 20 ∧
        |r.fleschKincaidGrade - t.fleschKincaidGrade| ≤ 1 / 20 ∧
        |r.smogIndex - t.smogIndex| ≤ 1 / 20 ∧
        |r.daleChallScore - t.daleChallScore| ≤ 1 / 200 ∧
        r.wordsCount = t.lexiconCount ∧ r.sentencesCount = t.sentenceCount) := by
  constructor
  · rintro e rfl
    rfl
  · rintro t rfl
    refine ⟨rfl, ?_⟩
    rintro r hr
    injection hr with hr'
    subst hr'
    refine ⟨⟨_, rfl⟩, ⟨_, rfl⟩, ⟨_, rfl⟩, ⟨_, rfl⟩, ?_, ?_, ?_, ?_, rfl, rfl⟩
    · show |roundTo 1 t.fleschReadingEase - t.fleschReadingEase| ≤ 1 / 20
      have h := roundTo_close 1 t.fleschReadingEase
      norm_num at h
      exact h
    · show |roundTo 1 t.fleschKincaidGrade - t.fleschKincaidGrade| ≤ 1 / 20
      have h := roundTo_close 1 t.fleschKincaidGrade
      norm_num at h
      exact h
    · show |roundTo 1 t.smogIndex - t.smogIndex| ≤ 1 / 20
      have h := roundTo_close 1 t.smogIndex
      norm_num at h
      exact h
    · show |roundTo 2 t.daleChallScore - t.daleChallScore| ≤ 1 / 200
      have h := roundTo_close 2 t.daleChallScore
      norm_num at h
      exact h

/-- Witness for `readability_summary_total` at a failing run and at a concrete
successful run. -/
theorem readability_summary_total_witness :
    readability_summary (Except.error ()) = none ∧
    readability_summary (Except.ok ⟨61 / 2, 7, 8, 39 / 4, 120, 6⟩) =
      some ⟨roundTo 1 (61 / 2), roundTo 1 7, roundTo 1 8, roundTo 2 (39 / 4),
        120, 6⟩ :=
  ⟨(readability_summary_total (Except.error ())).1 () rfl,
   ((readability_summary_total (Except.ok ⟨61 / 2, 7, 8, 39 / 4, 120, 6⟩)).2 _ rfl).1⟩

/-! ### PDF text extraction (claim C5) -/

/-- The page loop collects `page.extract_text() or ""` for every page, in order. -/
theorem collectPages_eq (pages : List (Option (List Char))) :
    collectPages pages = pages.map (fun p => p.getD []) := by
  induction pages with
  | nil => rfl
  | cons p ps ih => simp [collectPages, ih]

/-- C5: `extract_text_from_pdf` never raises: on any parsing failure it returns the
empty string, and on success it returns the page texts (missing ones taken as empty)
joined by newlines and stripped; for a single-page document this is just that page's
stripped text. -/
theorem extract_text_from_pdf_total
    (parsed : Except Unit (List (Option (List Char)))) :
    (∀ e, parsed = Except.error e → extract_text_from_pdf parsed = []) ∧
    (∀ pages, parsed = Except.ok pages →
      extract_text_from_pdf parsed =
        stripWS (joinNL (pages.map (fun p => p.getD [])))) ∧
    (∀ t, parsed = Except.ok [some t] → extract_text_from_pdf parsed = stripWS t) := by
  refine ⟨?_, ?_, ?_⟩
  · rintro e rfl
    rfl
  · rintro pages rfl
    simp [extract_text_from_pdf, collectPages_eq]
  · rintro t rfl
    rfl

/-- Witness for `extract_text_from_pdf_total` at a failing parse, a two-page parse
with one unreadable page, and a one-page parse. -/
theorem extract_text_from_pdf_total_witness :
    extract_text_from_pdf (Except.error ()) = [] ∧
    extract_text_from_pdf (Except.ok [some " page one ".data, none]) =
      stripWS (joinNL ([some " page one ".data, none].map (fun p => p.getD []))) ∧
    extract_text_from_pdf (Except.ok [some " hi ".data]) = stripWS " hi ".data :=
  ⟨(extract_text_from_pdf_total (Except.error ())).1 () rfl,
   ((extract_text_from_pdf_total (Except.ok [some " page one ".data, none])).2).1 _ rfl,
   ((extract_text_from_pdf_total (Except.ok [some " hi ".data])).2).2 _ rfl⟩

/-! ### Sentence splitting (claims C6, C7) -/

/-- A sentence-terminal character is not immediately followed by whitespace: the
separator pattern `(?<=[.!?])\s+` does not occur across this pair. -/
def NoSep (a b : Char) : Prop := ¬(isTerm a = true ∧ isWS b = true)

/-- No two adjacent whitespace characters. -/
def NoWW (a b : Char) : Prop := ¬(isWS a = true ∧ isWS b = true)

/-- A text without sentence terminators is separator-free. -/
theorem chain'_noSep_of_no_term {l : List Char} (h : ∀ c ∈ l, isTerm c = false) :
    l.Chain' NoSep := by
  induction l with
  | nil => simp
  | cons c cs ih =>
    rw [List.chain'_cons']
    exact ⟨fun y _ => by simp [NoSep, h c (List.mem_cons_self c cs)],
      ih fun x hx => h x (List.mem_cons_of_mem _ hx)⟩

/-- On separator-free input the splitter returns a single segment: the accumulator
followed by the whole rest. -/
theorem splitAux_no_split : ∀ (l acc : List Char), l.Chain' NoSep →
    (∀ h ∈ l.head?, ¬(isWS h = true ∧ headIsTerm acc = true)) →
    splitAux l false acc = [acc.reverse ++ l]
  | [], acc, _, _ => by simp [splitAux]
  | c :: cs, acc, hchain, hacc => by
    have hcond : (isWS c && headIsTerm acc) = false := by
      by_cases hws : isWS c = true
      · by_cases hht : headIsTerm acc = true
        · exact absurd ⟨hws, hht⟩ (hacc c (by simp))
        · simp [hht]
      · simp [hws]
    have hacc' : ∀ h ∈ cs.head?, ¬(isWS h = true ∧ headIsTerm (c :: acc) = true) := by
      intro h hh hcontr
      exact (List.chain'_cons'.mp hchain).1 h hh ⟨hcontr.2, hcontr.1⟩
    simp only [splitAux, hcond, Bool.false_eq_true, if_false]
    rw [splitAux_no_split cs (c :: acc) hchain.tail hacc']
    simp

/-- Every segment produced by the splitter is a contiguous part of the accumulator
followed by the remaining input. -/
theorem splitAux_contig : ∀ (l acc : List Char) (skipping : Bool) (seg : List Char),
    seg ∈ splitAux l skipping acc → seg <:+: (acc.reverse ++ l)
  | [], acc, skipping, seg, h => by
    cases skipping with
    | false =>
      simp [splitAux] at h
      subst h
      exact ⟨[], [], by simp⟩
    | true =>
      simp [splitAux] at h
      subst h
      exact List.nil_infix
  | c :: cs, acc, true, seg, h => by
    simp only [splitAux] at h
    by_cases hws : isWS c = true
    · rw [if_pos hws] at h
      have hrec := splitAux_contig cs [] true seg h
      simp only [List.reverse_nil, List.nil_append] at hrec
      exact hrec.trans ⟨acc.reverse ++ [c], [], by simp⟩
    · rw [if_neg hws] at h
      have hrec := splitAux_contig cs [c] false seg h
      simp only [List.reverse_singleton, List.singleton_append] at hrec
      exact hrec.trans ⟨acc.reverse, [], by simp⟩
  | c :: cs, acc, false, seg, h => by
    simp only [splitAux] at h
    by_cases hcond : (isWS c && headIsTerm acc) = true
    · rw [if_pos hcond] at h
      rcases List.mem_cons.mp h with rfl | hmem
      · exact ⟨[], c :: cs, by simp⟩
      · have hrec := splitAux_contig cs [] true seg hmem
        simp only [List.reverse_nil, List.nil_append] at hrec
        exact hrec.trans ⟨acc.reverse ++ [c], [], by simp⟩
    · rw [if_neg hcond] at h
      have hrec := splitAux_contig cs (c :: acc) false seg h
      have heq : (c :: acc).reverse ++ cs = acc.reverse ++ (c :: cs) := by simp
      rw [heq] at hrec
      exact hrec

/-- Every segment produced by the splitter is separator-free: the split happens at
every whitespace character preceded by a terminal, so none remains inside a segment. -/
theorem splitAux_chain : ∀ (l acc : List Char) (skipping : Bool) (seg : List Char),
    acc.reverse.Chain' NoSep → seg ∈ splitAux l skipping acc → seg.Chain' NoSep
  | [], acc, skipping, seg, hacc, h => by
    cases skipping with
    | false =>
      simp [splitAux] at h
      subst h
      exact hacc
    | true =>
      simp [splitAux] at h
      subst h
      simp
  | c :: cs, acc, true, seg, hacc, h => by
    simp only [splitAux] at h
    by_cases hws : isWS c = true
    · rw [if_pos hws] at h
      exact splitAux_chain cs [] true seg (by simp) h
    · rw [if_neg hws] at h
      exact splitAux_chain cs [c] false seg (by simp) h
  | c :: cs, acc, false, seg, hacc, h => by
    simp only [splitAux] at h
    by_cases hcond : (isWS c && headIsTerm acc) = true
    · rw [if_pos hcond] at h
      rcases List.mem_cons.mp h with rfl | hmem
      · exact hacc
      · exact splitAux_chain cs [] true seg (by simp) hmem
    · rw [if_neg hcond] at h
      refine splitAux_chain cs (c :: acc) false seg ?_ h
      rw [List.reverse_cons, List.chain'_append]
      refine ⟨hacc, List.chain'_singleton c, ?_⟩
      intro x hx y hy
      rw [List.getLast?_reverse] at hx
      simp only [List.head?_cons, Option.mem_def, Option.some.injEq] at hy
      subst hy
      intro hcontr
      have hht : headIsTerm acc = true := by
        cases acc with
        | nil => simp at hx
        | cons a as =>
          simp only [List.head?_cons, Option.mem_def, Option.some.injEq] at hx
          subst hx
          exact hcontr.1
      exact hcond (by simp [hcontr.2, hht])

/-- Characters of the normalised text come from the original text or are the space
that replaced a whitespace run. -/
theorem mem_normWS : ∀ {t : List Char} {c : Char}, c ∈ normWS t → c = ' ' ∨ c ∈ t
  | [], c, h => by simp [normWS] at h
  | [a], c, h => by
    by_cases ha : isWS a = true
    · simp [normWS, ha] at h
      exact Or.inl h
    · simp [normWS, ha] at h
      exact Or.inr (by simp [h])
  | a :: a' :: as, c, h => by
    by_cases ha : isWS a = true
    · by_cases ha' : isWS a' = true
      · rcases mem_normWS (t := a' :: as) (by simpa [normWS, ha, ha'] using h) with h1 | h2
        · exact Or.inl h1
        · exact Or.inr (List.mem_cons_of_mem _ h2)
      · rcases (by simpa [normWS, ha, ha'] using h : c = ' ' ∨ c ∈ normWS (a' :: as))
          with h1 | h2
        · exact Or.inl h1
        · rcases mem_normWS h2 with h3 | h4
          · exact Or.inl h3
          · exact Or.inr (List.mem_cons_of_mem _ h4)
    · rcases (by simpa [normWS, ha] using h : c = a ∨ c ∈ normWS (a' :: as)) with h1 | h2
      · exact Or.inr (by simp [h1])
      · rcases mem_normWS h2 with h3 | h4
        · exact Or.inl h3
        · exact Or.inr (List.mem_cons_of_mem _ h4)

/-- Every whitespace character of the normalised text is a plain space. -/
theorem normWS_ws_space : ∀ (t : List Char), ∀ c ∈ normWS t, isWS c = true → c = ' '
  | [] => by simp [normWS]
  | [a] => by
    intro c hc hws
    by_cases ha : isWS a = true
    · simp [normWS, ha] at hc
      exact hc
    · simp [normWS, ha] at hc
      subst hc
      exact absurd hws (by simp [ha])
  | a :: a' :: as => by
    intro c hc hws
    by_cases ha : isWS a = true
    · by_cases ha' : isWS a' = true
      · exact normWS_ws_space (a' :: as) c (by simpa [normWS, ha, ha'] using hc) hws
      · rcases (by simpa [normWS, ha, ha'] using hc : c = ' ' ∨ c ∈ normWS (a' :: as))
          with h1 | h2
        · exact h1
        · exact normWS_ws_space (a' :: as) c h2 hws
    · rcases (by simpa [normWS, ha] using hc : c = a ∨ c ∈ normWS (a' :: as)) with h1 | h2
      · subst h1
        exact absurd hws (by simp [ha])
      · exact normWS_ws_space (a' :: as) c h2 hws

/-- Normalisation keeps a non-whitespace head in place. -/
theorem normWS_head {c : Char} (cs : List Char) (h : isWS c = false) :
    (normWS (c :: cs)).head? = some c := by
  cases cs with
  | nil => simp [normWS, h]
  | cons c' cs' => simp [normWS, h]

/-- The normalised text has no two adjacent whitespace characters. -/
theorem normWS_chain : ∀ (t : List Char), (normWS t).Chain' NoWW
  | [] => by simp [normWS]
  | [a] => by by_cases h : isWS a = true <;> simp [normWS, h]
  | a :: a' :: as => by
    by_cases h : isWS a = true
    · by_cases h' : isWS a' = true
      · simpa [normWS, h, h'] using normWS_chain (a' :: as)
      · rw [show normWS (a :: a' :: as) = ' ' :: normWS (a' :: as) from by
          simp [normWS, h, h']]
        rw [List.chain'_cons']
        refine ⟨?_, normWS_chain (a' :: as)⟩
        intro y hy
        rw [normWS_head as (by simpa using h')] at hy
        simp only [Option.mem_def, Option.some.injEq] at hy
        subst hy
        simp [NoWW, h']
    · rw [show normWS (a :: a' :: as) = a :: normWS (a' :: as) from by simp [normWS, h]]
      rw [List.chain'_cons']
      exact ⟨fun y _ => by simp [NoWW, h], normWS_chain (a' :: as)⟩

/-- Normalisation is the identity on text whose whitespace is single plain spaces. -/
theorem normWS_id : ∀ (t : List Char), (∀ c ∈ t, isWS c = true → c = ' ') →
    t.Chain' NoWW → normWS t = t
  | [], _, _ => rfl
  | [a], h, _ => by
    by_cases hws : isWS a = true
    · have := h a (by simp) hws
      simp [normWS, hws, this]
    · simp [normWS, hws]
  | a :: a' :: as, h, hchain => by
    have ih := normWS_id (a' :: as) (fun x hx => h x (List.mem_cons_of_mem _ hx))
      hchain.tail
    by_cases hws : isWS a = true
    · have hc : a = ' ' := h a (by simp) hws
      have h' : isWS a' = false := by
        have hrel := (List.chain'_cons.mp hchain).1
        by_cases hcc : isWS a' = true
        · exact absurd ⟨hws, hcc⟩ hrel
        · simpa using hcc
      simp [normWS, hws, h', hc, ih]
    · simp [normWS, hws, ih]

/-- The head of `dropWhile p` never satisfies `p`. -/
theorem head?_dropWhile_false (p : Char → Bool) :
    ∀ (l : List Char), ∀ h ∈ (l.dropWhile p).head?, p h = false
  | [] => by simp
  | c :: cs => by
    by_cases hc : p c = true
    · rw [List.dropWhile_cons, if_pos hc]
      exact head?_dropWhile_false p cs
    · rw [List.dropWhile_cons, if_neg hc]
      intro h hh
      simp only [List.head?_cons, Option.mem_def, Option.some.injEq] at hh
      subst hh
      simpa using hc

/-- Stripping yields a contiguous part of the original text. -/
theorem stripWS_contig (l : List Char) : stripWS l <:+: l := by
  obtain ⟨t1, h1⟩ := List.rdropWhile_prefix isWS (l.dropWhile isWS)
  obtain ⟨s2, h2⟩ := List.dropWhile_suffix (l := l) isWS
  exact ⟨s2, t1, by rw [List.append_assoc]; rw [show stripWS l ++ t1 = l.dropWhile isWS from h1, h2]⟩

/-- The first character of a stripped text is not whitespace. -/
theorem head?_stripWS (l : List Char) : ∀ h ∈ (stripWS l).head?, isWS h = false := by
  intro h hh
  obtain ⟨tl, heq⟩ := List.rdropWhile_prefix isWS (l.dropWhile isWS)
  cases hsl : stripWS l with
  | nil => rw [hsl] at hh; simp at hh
  | cons a as =>
    rw [hsl] at hh
    simp only [List.head?_cons, Option.mem_def, Option.some.injEq] at hh
    subst hh
    apply head?_dropWhile_false isWS l
    have heq' : stripWS l ++ tl = l.dropWhile isWS := heq
    rw [← heq', hsl]
    simp

/-- The last character of a stripped text is not whitespace. -/
theorem getLast?_stripWS (l : List Char) :
    ∀ g ∈ (stripWS l).getLast?, isWS g = false := by
  intro g hg
  cases hsl : stripWS l with
  | nil => rw [hsl] at hg; simp at hg
  | cons a as =>
    have hne : stripWS l ≠ [] := by rw [hsl]; simp
    rw [List.getLast?_eq_getLast _ hne] at hg
    simp only [Option.mem_def, Option.some.injEq] at hg
    subst hg
    have hnot := List.rdropWhile_last_not (l := l.dropWhile isWS) (p := isWS) hne
    simpa using hnot

/-- Stripping is the identity when neither end is whitespace. -/
theorem stripWS_eq_self {l : List Char} (h1 : ∀ h ∈ l.head?, isWS h = false)
    (h2 : ∀ g ∈ l.getLast?, isWS g = false) : stripWS l = l := by
  have hd : l.dropWhile isWS = l := by
    rw [List.dropWhile_eq_self_iff]
    intro hl
    have hmem : l.get ⟨0, hl⟩ ∈ l.head? := by
      cases l with
      | nil => simp at hl
      | cons a as => simp
    simpa using h1 _ hmem
  show (l.dropWhile isWS).rdropWhile isWS = l
  rw [hd, List.rdropWhile_eq_self_iff]
  intro hl
  have hmem : l.getLast hl ∈ l.getLast? := by
    rw [List.getLast?_eq_getLast _ hl]
    simp
  simp [h2 _ hmem]

/-- C6: on a text containing none of `.`, `!`, `?`, `split_sentences` returns at most
one element — the trimmed, whitespace-normalised whole text — and the empty sequence
exactly when that trimmed text is blank. -/
theorem split_sentences_no_terminator (t : List Char)
    (h : ∀ c ∈ t, isTerm c = false) :
    (split_sentences t).length ≤ 1 ∧
    split_sentences t =
      if stripWS (normWS t) = [] then [] else [stripWS (normWS t)] := by
  have hnoterm : ∀ c ∈ normWS t, isTerm c = false := by
    intro c hc
    rcases mem_normWS hc with rfl | hmem
    · decide
    · exact h c hmem
  have hsingle : splitAux (normWS t) false [] = [normWS t] := by
    have := splitAux_no_split (normWS t) [] (chain'_noSep_of_no_term hnoterm)
      (by simp [headIsTerm])
    simpa using this
  rw [split_sentences, hsingle]
  by_cases he : stripWS (normWS t) = []
  · simp [he]
  · simp [he, List.isEmpty_iff]

/-- Witness for `split_sentences_no_terminator` on a concrete terminator-free text. -/
theorem split_sentences_no_terminator_witness :
    (split_sentences "  hello   world ".data).length ≤ 1 ∧
    split_sentences "  hello   world ".data =
      if stripWS (normWS "  hello   world ".data) = [] then []
      else [stripWS (normWS "  hello   world ".data)] :=
  split_sentences_no_terminator "  hello   world ".data (by decide)

/-- C7: sentence splitting is idempotent on its own output, which is normalised
single-spaced text: splitting any produced sentence returns exactly that sentence, so
re-splitting the produced sentences yields the same sequence. -/
theorem split_sentences_idem (t : List Char) :
    (∀ s ∈ split_sentences t, split_sentences s = [s]) ∧
    (split_sentences t).flatMap split_sentences = split_sentences t := by
  have hmain : ∀ s ∈ split_sentences t, split_sentences s = [s] := by
    intro s hs
    obtain ⟨hmem, hne⟩ := List.mem_filter.mp hs
    obtain ⟨seg, hseg, rfl⟩ := List.mem_map.mp hmem
    have hinf : seg <:+: normWS t := by
      simpa using splitAux_contig (normWS t) [] false seg hseg
    have hchainTS : seg.Chain' NoSep :=
      splitAux_chain (normWS t) [] false seg (by simp) hseg
    have hstrip_inf : stripWS seg <:+: seg := stripWS_contig seg
    have hWW : (stripWS seg).Chain' NoWW :=
      List.Chain'.infix (normWS_chain t) (hstrip_inf.trans hinf)
    have hTS : (stripWS seg).Chain' NoSep := List.Chain'.infix hchainTS hstrip_inf
    have hsub : ∀ c ∈ stripWS seg, isWS c = true → c = ' ' := by
      intro c hc
      exact normWS_ws_space t c ((hstrip_inf.trans hinf).sublist.subset hc)
    have hid : normWS (stripWS seg) = stripWS seg := normWS_id _ hsub hWW
    have hsplit1 : splitAux (stripWS seg) false [] = [stripWS seg] := by
      simpa using splitAux_no_split (stripWS seg) [] hTS (by simp [headIsTerm])
    have hstrip2 : stripWS (stripWS seg) = stripWS seg :=
      stripWS_eq_self (head?_stripWS seg) (getLast?_stripWS seg)
    rw [split_sentences, hid, hsplit1]
    simp only [List.map_cons, List.map_nil, hstrip2]
    simpa using hne
  refine ⟨hmain, ?_⟩
  have hgen : ∀ (l : List (List Char)), (∀ s ∈ l, split_sentences s = [s]) →
      l.flatMap split_sentences = l := by
    intro l hl
    induction l with
    | nil => simp
    | cons a as ih =>
      rw [List.flatMap_cons, hl a (List.mem_cons_self a as),
        ih fun s hs => hl s (List.mem_cons_of_mem _ hs)]
      simp
  exact hgen _ hmain

/-- Witness for `split_sentences_idem`: the membership hypothesis discharged on a
concrete two-sentence text. -/
theorem split_sentences_idem_witness :
    split_sentences "Hi there.".data = ["Hi there.".data] ∧
    (split_sentences "Hi there. Bye now.".data).flatMap split_sentences =
      split_sentences "Hi there. Bye now.".data :=
  ⟨(split_sentences_idem "Hi there. Bye now.".data).1 "Hi there.".data (by decide),
   (split_sentences_idem "Hi there. Bye now.".data).2⟩

/-! ### Duplicate adjacent words (claim C8) -/

/-- Whether the character before position `i` of `text` is a word character (the
state of the word-boundary lookaround `\b` when the scan stands at `i`). -/
def prevWAt (text : List Char) : ℕ → Bool
  | 0 => false
  | j + 1 => (((text.drop j).head?).map isW).getD false

/-- A duplicated-word occurrence in `text`: at position `i`, after a non-word
character (or the start), stands the full word `w`, then a gap of exactly `m ≥ 1`
whitespace characters, then the same word again up to ASCII case, followed by a
non-word character (or the end). -/
def dupOccurrence (text w : List Char) (i m : ℕ) : Prop :=
  w ≠ [] ∧ m ≠ 0 ∧ (∀ c ∈ w, isW c = true) ∧ prevWAt text i = false ∧
  (text.drop i).take w.length = w ∧
  (∀ c ∈ (text.drop (i + w.length)).take m, isWS c = true) ∧
  ((text.drop (i + w.length)).take m).length = m ∧
  (∀ h ∈ (text.drop (i + w.length + m)).head?, isWS h = false) ∧
  lcEq ((text.drop (i + w.length + m)).take w.length) w = true ∧
  noWordNext (text.drop (i + w.length + m + w.length)) = true

/-- Whitespace characters are not word characters. -/
theorem isW_of_isWS {c : Char} (h : isWS c = true) : isW c = false := by
  simp only [isWS, Bool.or_eq_true, decide_eq_true_eq] at h
  rcases h with ((((h | h) | h) | h) | h) | h <;> subst h <;> decide

/-- Dropping the length of the `takeWhile` prefix is `dropWhile`. -/
theorem drop_length_takeWhile (p : Char → Bool) : ∀ (l : List Char),
    l.drop (l.takeWhile p).length = l.dropWhile p
  | [] => rfl
  | c :: cs => by
    by_cases hc : p c = true
    · rw [List.takeWhile_cons, List.dropWhile_cons, if_pos hc, if_pos hc]
      simp only [List.length_cons, List.drop_succ_cons]
      exact drop_length_takeWhile p cs
    · rw [List.takeWhile_cons, List.dropWhile_cons, if_neg hc, if_neg hc]
      simp

/-- The function `takeWhile` is determined by a prefix of `p`-characters followed by a
non-`p` character (or the end). -/
theorem takeWhile_eq_of (p : Char → Bool) : ∀ (w l : List Char),
    l.take w.length = w → (∀ c ∈ w, p c = true) →
    (∀ h ∈ (l.drop w.length).head?, p h = false) →
    l.takeWhile p = w
  | [], l, _, _, hnext => by
    cases l with
    | nil => rfl
    | cons a as =>
      have ha := hnext a (by simp)
      rw [List.takeWhile_cons, if_neg (by simp [ha])]
  | c :: w', l, htake, hall, hnext => by
    cases l with
    | nil => simp at htake
    | cons a as =>
      simp only [List.length_cons, List.take_succ_cons, List.cons.injEq] at htake
      obtain ⟨rfl, htake'⟩ := htake
      rw [List.takeWhile_cons, if_pos (hall _ (by simp))]
      have hrest := takeWhile_eq_of p w' as htake'
        (fun x hx => hall x (by simp [hx]))
        (fun h hh => hnext h (by simpa using hh))
      rw [hrest]

/-- No match is possible at the end of the text. -/
theorem dupMatchAt_nil (prevW : Bool) : dupMatchAt prevW [] = none := by
  cases prevW <;> simp [dupMatchAt]

/-- Soundness of the single-position matcher: a successful match decomposes the
input into the word run, the whitespace run, and the case-insensitive repetition,
with the boundary conditions of the regex. -/
theorem dupMatchAt_sound {prevW : Bool} {l w : List Char} {len : ℕ}
    (h : dupMatchAt prevW l = some (w, len)) :
    prevW = false ∧ w ≠ [] ∧ (∀ c ∈ w, isW c = true) ∧ l.take w.length = w ∧
    ∃ m, m ≠ 0 ∧ (∀ c ∈ (l.drop w.length).take m, isWS c = true) ∧
      ((l.drop w.length).take m).length = m ∧
      (∀ x ∈ (l.drop (w.length + m)).head?, isWS x = false) ∧
      lcEq ((l.drop (w.length + m)).take w.length) w = true ∧
      noWordNext ((l.drop (w.length + m)).drop w.length) = true ∧
      len = w.length + m + w.length := by
  simp only [dupMatchAt] at h
  split_ifs at h with hp h1 h2 h3
  case pos =>
    simp only [Option.some.injEq, Prod.mk.injEq] at h
    obtain ⟨hw, hlen⟩ := h
    subst hw
    rw [Bool.and_eq_true] at h3
    obtain ⟨hlc, hnext⟩ := h3
    have hdw : l.drop (l.takeWhile isW).length = l.dropWhile isW :=
      drop_length_takeWhile isW l
    have hdw2 : (l.dropWhile isW).drop
        ((l.dropWhile isW).takeWhile isWS).length = (l.dropWhile isW).dropWhile isWS :=
      drop_length_takeWhile isWS (l.dropWhile isW)
    refine ⟨by simpa using hp, by simpa [List.isEmpty_iff] using h1, ?_, ?_, ?_⟩
    · exact fun c hc => List.mem_takeWhile_imp hc
    · exact (List.prefix_iff_eq_take.mp ( List.takeWhile_prefix isW)).symm
    refine ⟨((l.dropWhile isW).takeWhile isWS).length, ?_, ?_, ?_, ?_, ?_, ?_, ?_⟩
    · simpa [List.isEmpty_iff, List.length_eq_zero] using h2
    · rw [hdw]
      intro c hc
      exact List.mem_takeWhile_imp
        ((List.prefix_iff_eq_take.mp ( List.takeWhile_prefix isWS)).symm ▸ hc)
    · rw [hdw, ← List.prefix_iff_eq_take.mp ( List.takeWhile_prefix isWS)]
    · intro x hx
      rw [← List.drop_drop, hdw, hdw2] at hx
      exact head?_dropWhile_false isWS _ x hx
    · rw [← List.drop_drop, hdw, hdw2]
      exact hlc
    · rw [← List.drop_drop, hdw, hdw2]
      exact hnext
    · exact hlen.symm

/-- Soundness of the scanner: under the boundary invariant (scanning with `prevW =
false` only at genuine non-word-preceded positions), every emitted pair is a
duplicated-word occurrence together with its flattened context slice. -/
theorem findDupAux_sound (text : List Char) :
    ∀ (fuel : ℕ) (prevW : Bool) (i : ℕ),
      (prevW = false → prevWAt text i = false) →
      ∀ w ctx, (w, ctx) ∈ findDupAux text fuel prevW i →
      ∃ j m, dupOccurrence text w j m ∧
        ctx = dupContext text j (j + (w.length + m + w.length))
  | 0, prevW, i, _, w, ctx, h => by simp [findDupAux] at h
  | fuel + 1, prevW, i, hinv, w, ctx, h => by
    rw [findDupAux] at h
    split at h
    next hdrop => simp at h
    next c cs hdrop =>
      split at h
      next w' len hmatch =>
        rcases List.mem_cons.mp h with heq | hmem
        · simp only [Prod.mk.injEq] at heq
          obtain ⟨rfl, rfl⟩ := heq
          obtain ⟨hpw, hwne, hwall, htake, m, hm0, hspall, hsplen, hwshead, hlc,
            hnext, hlen⟩ := dupMatchAt_sound hmatch
          subst hlen
          refine ⟨i, m, ?_, rfl⟩
          have e1 : text.drop (i + w.length) = (c :: cs).drop w.length := by
            rw [← hdrop, List.drop_drop]
          have e2 : text.drop (i + w.length + m) = (c :: cs).drop (w.length + m) := by
            rw [← hdrop, List.drop_drop]
            congr 1
            omega
          have e3 : text.drop (i + w.length + m + w.length) =
              (c :: cs).drop (w.length + m + w.length) := by
            rw [← hdrop, List.drop_drop]
            congr 1
            omega
          refine ⟨hwne, hm0, hwall, hinv hpw, ?_, ?_, ?_, ?_, ?_, ?_⟩
          · rw [hdrop]
            exact htake
          · rw [e1]
            exact hspall
          · rw [e1]
            exact hsplen
          · rw [e2]
            exact hwshead
          · rw [e2]
            exact hlc
          · rw [e3]
            rw [List.drop_drop] at hnext
            exact hnext
        · exact findDupAux_sound text fuel true (i + len)
            (fun hfalse => absurd hfalse (by simp)) w ctx hmem
      next hmatch =>
        exact findDupAux_sound text fuel (isW c) (i + 1)
          (fun hfalse => by simp [prevWAt, hdrop, hfalse]) w ctx h

/-- Completeness of the scanner on the empty result: if the scan from position `i`
(carrying the true boundary state) finds nothing and has enough fuel, then the matcher
fails at every position from `i` on. -/
theorem findDupAux_complete (text : List Char) :
    ∀ (fuel i : ℕ), text.length + 1 ≤ fuel + i →
      findDupAux text fuel (prevWAt text i) i = [] →
      ∀ j, i ≤ j → dupMatchAt (prevWAt text j) (text.drop j) = none
  | 0, i, hfuel, _, j, hij => by
    have hj : text.drop j = [] := List.drop_eq_nil_iff.mpr (by omega)
    rw [hj]
    exact dupMatchAt_nil _
  | fuel + 1, i, hfuel, hscan, j, hij => by
    rw [findDupAux] at hscan
    split at hscan
    next hdrop =>
      have hlen : text.length ≤ i := by
        have := congrArg List.length hdrop
        simp only [List.length_drop, List.length_nil] at this
        omega
      have hj : text.drop j = [] := List.drop_eq_nil_iff.mpr (by omega)
      rw [hj]
      exact dupMatchAt_nil _
    next c cs hdrop =>
      split at hscan
      next w len hmatch =>
        simp at hscan
      next hmatch =>
        have hnext : prevWAt text (i + 1) = isW c := by simp [prevWAt, hdrop]
        rcases Nat.eq_or_lt_of_le hij with rfl | hlt
        · rw [hdrop]
          exact hmatch
        · exact findDupAux_complete text fuel (i + 1) (by omega)
            (by rw [hnext]; exact hscan) j (by omega)

/-- Conversely, the matcher succeeds at the position of any duplicated-word
occurrence, capturing that word and the full match length. -/
theorem dupMatchAt_of_occurrence {text w : List Char} {j m : ℕ}
    (h : dupOccurrence text w j m) :
    dupMatchAt (prevWAt text j) (text.drop j) =
      some (w, w.length + m + w.length) := by
  obtain ⟨hwne, hm0, hwall, hpw, htake, hspall, hsplen, hwshead, hlc, hnext⟩ := h
  have e1 : (text.drop j).drop w.length = text.drop (j + w.length) :=
    List.drop_drop _ _ _
  have e2 : (text.drop (j + w.length)).drop m = text.drop (j + w.length + m) :=
    List.drop_drop _ _ _
  have htw : (text.drop j).takeWhile isW = w := by
    apply takeWhile_eq_of isW w (text.drop j) htake hwall
    intro x hx
    rw [e1] at hx
    cases hl : text.drop (j + w.length) with
    | nil =>
      rw [hl] at hx
      simp at hx
    | cons a as =>
      rw [hl] at hx
      simp only [List.head?_cons, Option.mem_def, Option.some.injEq] at hx
      subst hx
      have ha : a ∈ (text.drop (j + w.length)).take m := by
        rw [hl]
        cases m with
        | zero => exact absurd rfl hm0
        | succ m' => simp
      exact isW_of_isWS (hspall a ha)
  have hdw : (text.drop j).dropWhile isW = text.drop (j + w.length) := by
    rw [← drop_length_takeWhile isW (text.drop j), htw, e1]
  have hsp : (text.drop (j + w.length)).takeWhile isWS =
      (text.drop (j + w.length)).take m := by
    refine takeWhile_eq_of isWS _ _ ?_ hspall ?_
    · rw [hsplen]
    · intro x hx
      rw [hsplen, e2] at hx
      exact hwshead x hx
  have hdw2 : (text.drop (j + w.length)).dropWhile isWS =
      text.drop (j + w.length + m) := by
    rw [← drop_length_takeWhile isWS (text.drop (j + w.length)), hsp, hsplen, e2]
  have hempty1 : w.isEmpty = false := by
    rw [List.isEmpty_eq_false]
    exact hwne
  have hempty2 : ((text.drop (j + w.length)).take m).isEmpty = false := by
    rw [List.isEmpty_eq_false]
    intro heq
    rw [heq] at hsplen
    exact hm0 (by simpa using hsplen.symm)
  have hcond : (lcEq ((text.drop (j + w.length + m)).take w.length) w &&
      noWordNext ((text.drop (j + w.length + m)).drop w.length)) = true := by
    rw [Bool.and_eq_true]
    refine ⟨hlc, ?_⟩
    rw [List.drop_drop]
    exact hnext
  simp only [dupMatchAt, hpw, Bool.false_eq_true, if_false, htw, hdw, hsp, hdw2,
    hempty1, hempty2, hsplen, hcond, if_true]

/-- C8 fails as stated on overlapping occurrences: in "cat cat cat" the word `cat` is
immediately followed by itself at two positions (0 and 4), yet `find_duplicate_words`
returns a single issue, because the scan resumes only after the end of each match. -/
theorem find_duplicate_words_overlap_refuted :
    dupOccurrence "cat cat cat".data "cat".data 0 1 ∧
    dupOccurrence "cat cat cat".data "cat".data 4 1 ∧
    (find_duplicate_words "cat cat cat".data).length = 1 := by
  refine ⟨?_, ?_, ?_⟩
  · unfold dupOccurrence
    decide
  · unfold dupOccurrence
    decide
  · decide

/-- C8 amended: every returned issue is a duplicated-word occurrence — the captured
word paired with the ±40-character context slice with newlines flattened — one issue
per match of the left-to-right scan, which resumes after each match (so overlapping
occurrences merge into one issue); when no issue is returned the text has no
duplicated-word occurrence at all; and on "the cat cat sat" the function returns
exactly one match, for "cat", with non-empty context. -/
theorem find_duplicate_words_spec :
    (∀ (text w ctx : List Char), (w, ctx) ∈ find_duplicate_words text →
      ∃ j m, dupOccurrence text w j m ∧
        ctx = dupContext text j (j + (w.length + m + w.length))) ∧
    (∀ (text : List Char), find_duplicate_words text = [] →
      ∀ w j m, ¬dupOccurrence text w j m) ∧
    find_duplicate_words "the cat cat sat".data =
      [("cat".data, "the cat cat sat".data)] := by
  refine ⟨?_, ?_, by decide⟩
  · intro text w ctx h
    exact findDupAux_sound text (text.length + 1) false 0 (fun _ => rfl) w ctx h
  · intro text hempty w j m hocc
    have h0 : findDupAux text (text.length + 1) (prevWAt text 0) 0 = [] := hempty
    have hnone := findDupAux_complete text (text.length + 1) 0 (by omega) h0 j
      (Nat.zero_le j)
    rw [dupMatchAt_of_occurrence hocc] at hnone
    simp at hnone

/-- Witness for `find_duplicate_words_spec`: the membership hypothesis discharged on
"the cat cat sat" and the emptiness hypothesis on "no dupes here". -/
theorem find_duplicate_words_spec_witness :
    (∃ j m, dupOccurrence "the cat cat sat".data "cat".data j m ∧
      "the cat cat sat".data = dupContext "the cat cat sat".data j
        (j + ("cat".data.length + m + "cat".data.length))) ∧
    ¬dupOccurrence "no dupes here".data "no".data 0 1 :=
  ⟨find_duplicate_words_spec.1 "the cat cat sat".data "cat".data
      "the cat cat sat".data (by decide),
   find_duplicate_words_spec.2.1 "no dupes here".data (by decide) "no".data 0 1⟩
